import Mathlib

/-!
Verification of the Fedora glibc ROP-gadget pipeline (`src/webscraping/fedora.py`).

The Python source is shallowly embedded: each function of the script becomes an
executable Lean definition over `List Char` / `String`, network and filesystem
effects are made explicit as parameters (a page is a list of anchors, a download
outcome is a tag, the disk is a list of existing paths), and the regular
expressions of the script are translated into deterministic matchers (all the
patterns used are of the form "greedy digit runs separated by fixed literals",
for which greedy matching never needs backtracking).
-/

namespace GlibcRop

/-! ## Generic character and string machinery -/


/-- Boolean prefix test on character lists (decidable equality, no `BEq`). -/
def listPrefixOf : List Char → List Char → Bool
  | [], _ => true
  | _ :: _, [] => false
  | c :: cs, d :: ds => if c = d then listPrefixOf cs ds else false

/-- Substring containment on character lists: `pat` occurs somewhere in the
second argument.  Models Python's `pat in hay`. -/
def listContains (pat : List Char) : List Char → Bool
  | [] => listPrefixOf pat []
  | c :: t => listPrefixOf pat (c :: t) || listContains pat t

/-- Python's `pat in hay` on strings. -/
def strContains (hay pat : String) : Bool := listContains pat.data hay.data

/-- Python's `hay.endswith(pat)`. -/
def strEndsWith (hay pat : String) : Bool := listPrefixOf pat.data.reverse hay.data.reverse

/-- Python's `hay.startswith(pat)`. -/
def strStartsWith (hay pat : String) : Bool := listPrefixOf pat.data hay.data

/-- Python's `s.strip()`: drop whitespace from both ends. -/
def pyStrip (s : String) : String :=
  String.mk (((s.data.dropWhile Char.isWhitespace).reverse.dropWhile Char.isWhitespace).reverse)

/-- Python's `int()` on a string of decimal digits. -/
def natOfDigits (l : List Char) : Nat :=
  l.foldl (fun n c => 10 * n + (c.toNat - 48)) 0

/-! ## Association lists (Python `dict` with insertion order) -/

section AList

variable {κ : Type} {β : Type} [DecidableEq κ]

/-- Look a key up in an association list (Python `d[k]` / `k in d`). -/
def alistFind : List (κ × β) → κ → Option β
  | [], _ => none
  | (k', v) :: rest, k => if k = k' then some v else alistFind rest k

/-- Set a key in an association list, replacing in place (as a Python `dict`
assignment keeps the key's insertion position) or appending a fresh key. -/
def alistSet : List (κ × β) → κ → β → List (κ × β)
  | [], k, v => [(k, v)]
  | (k', v') :: rest, k, v =>
    if k' = k then (k, v) :: rest else (k', v') :: alistSet rest k v

/-- The keys of an association list. -/
def alistKeys (d : List (κ × β)) : List κ := d.map Prod.fst

theorem alistFind_set_self (d : List (κ × β)) (k : κ) (v : β) :
    alistFind (alistSet d k v) k = some v := by
  induction d with
  | nil => simp [alistFind, alistSet]
  | cons hd tl ih =>
    obtain ⟨k', v'⟩ := hd
    by_cases h : k' = k
    · subst h; simp [alistFind, alistSet]
    · have h' : ¬(k = k') := fun hk => h hk.symm
      simp [alistFind, alistSet, h, h', ih]

theorem alistFind_set_other (d : List (κ × β)) (k k' : κ) (v : β) (h : k' ≠ k) :
    alistFind (alistSet d k v) k' = alistFind d k' := by
  induction d with
  | nil => simp [alistFind, alistSet, h]
  | cons hd tl ih =>
    obtain ⟨k₀, v₀⟩ := hd
    by_cases h₀ : k₀ = k
    · subst h₀; simp [alistFind, alistSet, h]
    · simp only [alistSet, if_neg h₀, alistFind]
      by_cases h₁ : k' = k₀
      · simp [h₁]
      · simp [h₁, ih]

theorem mem_alistKeys_set (d : List (κ × β)) (k x : κ) (v : β) :
    x ∈ alistKeys (alistSet d k v) → x = k ∨ x ∈ alistKeys d := by
  induction d with
  | nil => simp [alistKeys, alistSet]
  | cons hd tl ih =>
    obtain ⟨k₀, v₀⟩ := hd
    by_cases h₀ : k₀ = k
    · subst h₀; simp [alistKeys, alistSet]
    · simp only [alistSet, if_neg h₀, alistKeys, List.map_cons, List.mem_cons]
      rintro (rfl | hx)
      · right; simp [alistKeys]
      · rcases ih hx with h | h
        · exact Or.inl h
        · right; simp [alistKeys] at h ⊢; tauto

theorem alistKeys_set_nodup (d : List (κ × β)) (k : κ) (v : β)
    (h : (alistKeys d).Nodup) : (alistKeys (alistSet d k v)).Nodup := by
  induction d with
  | nil => simp [alistKeys, alistSet]
  | cons hd tl ih =>
    obtain ⟨k₀, v₀⟩ := hd
    simp only [alistKeys, List.map_cons, List.nodup_cons] at h
    by_cases h₀ : k₀ = k
    · subst h₀
      simpa [alistKeys, alistSet] using h
    · simp only [alistSet, if_neg h₀, alistKeys, List.map_cons, List.nodup_cons]
      refine ⟨fun hx => ?_, ih h.2⟩
      rcases mem_alistKeys_set tl k k₀ v hx with rfl | hx'
      · exact h₀ rfl
      · exact h.1 hx'

theorem alistFind_eq_none_of_not_mem_keys (d : List (κ × β)) (k : κ)
    (h : k ∉ alistKeys d) : alistFind d k = none := by
  induction d with
  | nil => rfl
  | cons hd tl ih =>
    obtain ⟨k₀, v₀⟩ := hd
    simp only [alistKeys, List.map_cons, List.mem_cons] at h
    push_neg at h
    simp [alistFind, h.1, ih (by simpa [alistKeys] using h.2)]

end AList

/-- The 26 uppercase-to-lowercase ASCII pairs. -/
def upperLowerTable : List (Char × Char) :=
  [('A', 'a'), ('B', 'b'), ('C', 'c'), ('D', 'd'), ('E', 'e'), ('F', 'f'),
   ('G', 'g'), ('H', 'h'), ('I', 'i'), ('J', 'j'), ('K', 'k'), ('L', 'l'),
   ('M', 'm'), ('N', 'n'), ('O', 'o'), ('P', 'p'), ('Q', 'q'), ('R', 'r'),
   ('S', 's'), ('T', 't'), ('U', 'u'), ('V', 'v'), ('W', 'w'), ('X', 'x'),
   ('Y', 'y'), ('Z', 'z')]

/-- ASCII lower-casing of a single character, as `str.lower()` acts on the
ASCII strings this script manipulates; every non-uppercase character is
unchanged. -/
def asciiLower (c : Char) : Char :=
  match alistFind upperLowerTable c with
  | some d => d
  | none => c

/-- Lower-case a character list. -/
def lowerList (l : List Char) : List Char := l.map asciiLower

/-! ## The version-number matcher

`create_libc_filename` uses `re.search` with the pattern
`(\d+\.\d+(?:\.\d+)*)`: one or more digits, a dot, one or more digits,
optionally repeated.  Every `\d+` in the pattern is followed by a non-digit
literal (or the end of the pattern), so greedy matching needs no backtracking
and the search is the leftmost position at which the deterministic matcher
below succeeds. -/

theorem length_dropWhile_le (p : Char → Bool) (l : List Char) :
    (l.dropWhile p).length ≤ l.length := by
  induction l with
  | nil => simp [List.dropWhile]
  | cons c t ih =>
    by_cases h : p c
    · simp only [List.dropWhile, h]
      exact Nat.le_trans ih (Nat.le_succ _)
    · simp only [List.dropWhile, Bool.not_eq_true] at *
      simp [h]

/-- Match `\d+` at the head of the list: the maximal nonempty digit run. -/
def matchDigits (l : List Char) : Option (List Char × List Char) :=
  let ds := l.takeWhile Char.isDigit
  if ds.isEmpty then none else some (ds, l.dropWhile Char.isDigit)

/-- Greedy continuation of a version token once `\d+\.\d` has been matched:
consume further digits of the current run and any subsequent `\.\d+` groups,
stopping at the first character that cannot extend the token.  Returns the
consumed part and the rest. -/
def extendRun : List Char → List Char × List Char
  | [] => ([], [])
  | c :: rest =>
    if c.isDigit then
      (c :: (extendRun rest).1, (extendRun rest).2)
    else if c = '.' then
      match rest with
      | d :: rest2 =>
        if d.isDigit then
          ('.' :: d :: (extendRun rest2).1, (extendRun rest2).2)
        else ([], c :: rest)
      | [] => ([], [c])
    else ([], c :: rest)

/-- Match `\d+\.\d+(?:\.\d+)*` at the head of the list, returning the matched
token and the rest. -/
def matchVersionAt (l : List Char) : Option (List Char × List Char) :=
  match matchDigits l with
  | none => none
  | some (d1, r1) =>
    match r1 with
    | '.' :: r2 =>
      match r2 with
      | c :: r3 =>
        if c.isDigit then
          let (e, rest) := extendRun r3
          some (d1 ++ '.' :: c :: e, rest)
        else none
      | [] => none
    | _ => none

/-- `re.search` for the version pattern: try each position left to right and
return the first (leftmost) match. -/
def searchVersionFrom : List Char → Option (List Char)
  | [] => none
  | c :: t =>
    match matchVersionAt (c :: t) with
    | some (m, _) => some m
    | none => searchVersionFrom t

/-- Embeds `create_libc_filename` (src/webscraping/fedora.py:451-463): search
the filename for the first version-like token and substitute it into the fixed
template, raising `ValueError` when no token exists. -/
def create_libc_filename (rpm_filename : String) : Except String String :=
  match searchVersionFrom rpm_filename.data with
  | some version => .ok ("libc-" ++ String.mk version ++ ".so")
  | none => .error ("Could not extract version from filename: " ++ rpm_filename)

/-! ### Structure of matched version tokens -/

theorem extendRun_cons_digit (c : Char) (rest : List Char) (h : c.isDigit = true) :
    extendRun (c :: rest) = (c :: (extendRun rest).1, (extendRun rest).2) := by
  rw [extendRun.eq_def]
  dsimp only
  rw [if_pos h]

theorem extendRun_dot_digit (d : Char) (rest2 : List Char) (h : d.isDigit = true) :
    extendRun ('.' :: d :: rest2) = ('.' :: d :: (extendRun rest2).1, (extendRun rest2).2) := by
  rw [extendRun.eq_def]
  dsimp only
  rw [if_neg (by decide), if_pos rfl]
  rw [if_pos h]

theorem extendRun_dot_nondigit (d : Char) (rest2 : List Char) (h : ¬d.isDigit = true) :
    extendRun ('.' :: d :: rest2) = ([], '.' :: d :: rest2) := by
  rw [extendRun.eq_def]
  dsimp only
  rw [if_neg (by decide), if_pos rfl]
  rw [if_neg h]

theorem extendRun_dot_nil : extendRun ['.'] = ([], ['.']) := rfl

theorem extendRun_stop (c : Char) (rest : List Char) (h1 : ¬c.isDigit = true)
    (h2 : ¬c = '.') : extendRun (c :: rest) = ([], c :: rest) := by
  rw [extendRun.eq_def]
  dsimp only
  rw [if_neg h1, if_neg h2]

theorem extendRun_spec (l : List Char) :
    l = (extendRun l).1 ++ (extendRun l).2 ∧ ∀ c ∈ (extendRun l).1, c.isDigit ∨ c = '.' := by
  induction l using extendRun.induct with
  | case1 => simp [extendRun]
  | case2 c rest h ih =>
    rw [extendRun_cons_digit c rest h]
    refine ⟨?_, ?_⟩
    · conv_lhs => rw [ih.1]
      simp
    · intro x hx
      rcases List.mem_cons.mp hx with rfl | hx'
      · exact Or.inl h
      · exact ih.2 x hx'
  | case3 c rest h hnd ih =>
    rw [extendRun_dot_digit c rest h]
    refine ⟨?_, ?_⟩
    · conv_lhs => rw [ih.1]
      simp
    · intro x hx
      rcases List.mem_cons.mp hx with rfl | hx'
      · exact Or.inr rfl
      · rcases List.mem_cons.mp hx' with rfl | hx2
        · exact Or.inl h
        · exact ih.2 x hx2
  | case4 d rest2 hd hnd =>
    rw [extendRun_dot_nondigit d rest2 hd]
    simp
  | case5 hnd =>
    rw [extendRun_dot_nil]
    simp
  | case6 c rest h1 h2 =>
    rw [extendRun_stop c rest h1 h2]
    simp

theorem matchDigits_spec (l d r : List Char) (h : matchDigits l = some (d, r)) :
    l = d ++ r ∧ d ≠ [] ∧ ∀ c ∈ d, c.isDigit := by
  simp only [matchDigits] at h
  split at h
  · exact absurd h (by simp)
  · next he =>
    simp only [Option.some.injEq, Prod.mk.injEq] at h
    obtain ⟨rfl, rfl⟩ := h
    refine ⟨(List.takeWhile_append_dropWhile Char.isDigit l).symm, ?_, ?_⟩
    · simpa [List.isEmpty_iff] using he
    · intro c hc
      exact List.mem_takeWhile_imp hc

theorem matchVersionAt_spec (l m rest : List Char) (h : matchVersionAt l = some (m, rest)) :
    l = m ++ rest ∧ m ≠ [] ∧ ∀ c ∈ m, c.isDigit ∨ c = '.' := by
  unfold matchVersionAt at h
  split at h
  · exact absurd h (by simp)
  · next d1 r1 hd1 =>
    split at h
    · next r2 =>
      split at h
      · next c r3 =>
        split at h
        · next hcd =>
          simp only [Option.some.injEq, Prod.mk.injEq] at h
          obtain ⟨hm, hrest⟩ := h
          obtain ⟨hl1, hne1, hdig1⟩ := matchDigits_spec l d1 ('.' :: c :: r3) hd1
          obtain ⟨hsplit, hchars⟩ := extendRun_spec r3
          refine ⟨?_, ?_, ?_⟩
          · rw [hl1, ← hm, ← hrest]
            conv_lhs => rw [hsplit]
            simp
          · rw [← hm]; simp
          · rw [← hm]
            intro x hx
            simp only [List.mem_append, List.mem_cons] at hx
            rcases hx with hx | rfl | rfl | hx
            · exact Or.inl (hdig1 x hx)
            · exact Or.inr rfl
            · exact Or.inl hcd
            · exact hchars x hx
        · exact absurd h (by simp)
      · exact absurd h (by simp)
    · exact absurd h (by simp)

theorem searchVersionFrom_chars (l v : List Char) (h : searchVersionFrom l = some v) :
    ∀ c ∈ v, c.isDigit ∨ c = '.' := by
  induction l with
  | nil => simp [searchVersionFrom] at h
  | cons c t ih =>
    simp only [searchVersionFrom] at h
    cases hm : matchVersionAt (c :: t) with
    | some p =>
      obtain ⟨m, r⟩ := p
      rw [hm] at h
      simp only [Option.some.injEq] at h
      subst h
      exact (matchVersionAt_spec _ _ _ hm).2.2
    | none =>
      rw [hm] at h
      exact ih h

/-! ## Claim C2: deterministic naming -/
/-- Claim C2 counterexample: the filename `glibc-2.39-2.fc40.x86_64.rpm`
contains the token `2.39-2`, yet the derived name is `libc-2.39.so`, not the
`libc-2.39-2.so` the claim requires: the version pattern captures only the
digits-and-dots token `2.39`, never the `-2` release suffix. -/
theorem claim_C2_counterexample :
    strContains "glibc-2.39-2.fc40.x86_64.rpm" "2.39-2" = true
    ∧ create_libc_filename "glibc-2.39-2.fc40.x86_64.rpm" = Except.ok "libc-2.39.so"
    ∧ ("libc-2.39.so" : String) ≠ "libc-2.39-2.so" := by
  refine ⟨rfl, rfl, ?_⟩
  decide

/-- Claim C2 (amended): for every source package filename in which the first
version-like numeric-dot token is `v` (for `glibc-2.39-2.fc40...` this is
`2.39`, not `2.39-2`), the derived library name is the fixed template
`lib<component>-<version>.so` instantiated with `v` alone, the token consists
only of digits and dots, and the result carries no path separator. -/
theorem claim_C2 (f : String) (v : List Char) (h : searchVersionFrom f.data = some v) :
    create_libc_filename f = Except.ok ("libc-" ++ String.mk v ++ ".so")
    ∧ (∀ c ∈ v, c.isDigit ∨ c = '.')
    ∧ ∀ c ∈ ("libc-" ++ String.mk v ++ ".so").data, c ≠ '/' := by
  have hchars := searchVersionFrom_chars f.data v h
  refine ⟨?_, hchars, ?_⟩
  · simp [create_libc_filename, h]
  · intro c hc
    have hdata : ("libc-" ++ String.mk v ++ ".so").data
        = "libc-".data ++ v ++ ".so".data := rfl
    rw [hdata] at hc
    simp only [List.mem_append] at hc
    have hfix1 : ∀ x ∈ ("libc-" : String).data, x ≠ '/' := by decide
    have hfix2 : ∀ x ∈ (".so" : String).data, x ≠ '/' := by decide
    rcases hc with (hc | hc) | hc
    · exact hfix1 c hc
    · rcases hchars c hc with hd | rfl
      · intro heq; rw [heq] at hd; exact absurd hd (by decide)
      · decide
    · exact hfix2 c hc

/-- Witness for the amended claim C2, at the concrete Fedora package name. -/
theorem claim_C2_witness :
    searchVersionFrom ("glibc-2.39-2.fc40.x86_64.rpm" : String).data = some ['2', '.', '3', '9']
    ∧ (create_libc_filename "glibc-2.39-2.fc40.x86_64.rpm"
          = Except.ok ("libc-" ++ String.mk ['2', '.', '3', '9'] ++ ".so")
       ∧ (∀ c ∈ ['2', '.', '3', '9'], c.isDigit ∨ c = '.')
       ∧ ∀ c ∈ (("libc-" ++ String.mk ['2', '.', '3', '9'] ++ ".so") : String).data, c ≠ '/') :=
  ⟨rfl, claim_C2 "glibc-2.39-2.fc40.x86_64.rpm" ['2', '.', '3', '9'] rfl⟩

/-! ## Claim C3: noise-line removal -/
/-- Case-insensitive prefix test on character lists, as a `re.IGNORECASE`
literal pattern compares letters. -/
def ciPrefixOf : List Char → List Char → Bool
  | [], _ => true
  | _ :: _, [] => false
  | c :: cs, d :: ds => if asciiLower c = asciiLower d then ciPrefixOf cs ds else false

/-- Case-insensitive substring containment. -/
def ciContains (pat : List Char) : List Char → Bool
  | [] => ciPrefixOf pat []
  | c :: t => ciPrefixOf pat (c :: t) || ciContains pat t

/-- Embeds the noise pattern `re.compile(r"\[LOAD\]|\[INFO\]", re.IGNORECASE)`
used with `.search` in `create_rop_gadgets` (src/webscraping/fedora.py:551):
does the line contain `[LOAD]` or `[INFO]` in any letter case? -/
def noiseSearch (line : String) : Bool :=
  ciContains "[LOAD]".data line.data || ciContains "[INFO]".data line.data

/-- Embeds the in-place rewrite loop of `create_rop_gadgets`
(src/webscraping/fedora.py:553-558): read all lines, then write back, in
order, exactly those lines in which the noise pattern does not occur. -/
def filter_gadget_lines (lines : List String) : List String :=
  lines.foldl (fun acc line => if noiseSearch line then acc else acc ++ [line]) []

theorem filter_gadget_lines_foldl (lines : List String) (acc : List String) :
    lines.foldl (fun acc line => if noiseSearch line then acc else acc ++ [line]) acc
      = acc ++ lines.filter (fun l => !noiseSearch l) := by
  induction lines generalizing acc with
  | nil => simp
  | cons hd tl ih =>
    by_cases h : noiseSearch hd
    · simp [List.foldl_cons, h, ih]
    · simp [List.foldl_cons, h, ih]

/-- Claim C3: the noise-filtering step outputs exactly the sublist of input
lines that do not contain `[LOAD]` or `[INFO]` in any letter case, in their
original relative order; every line containing either marker is dropped and
no other line is dropped, reordered, or modified. -/
theorem claim_C3 (lines : List String) :
    filter_gadget_lines lines = lines.filter (fun l => !noiseSearch l)
    ∧ List.Sublist (filter_gadget_lines lines) lines
    ∧ ∀ l, l ∈ filter_gadget_lines lines ↔ l ∈ lines ∧ noiseSearch l = false := by
  have heq : filter_gadget_lines lines = lines.filter (fun l => !noiseSearch l) := by
    simpa using filter_gadget_lines_foldl lines []
  refine ⟨heq, ?_, ?_⟩
  · rw [heq]; exact List.filter_sublist lines
  · intro l
    rw [heq, List.mem_filter]
    simp

/-! ## URLs, paths, and Claim C5: the downloader -/
/-- Split at the first occurrence of a separator character; `none` when the
separator does not occur. -/
def splitAtFirst (sep : Char) : List Char → List Char × Option (List Char)
  | [] => ([], none)
  | c :: t =>
    if c = sep then ([], some t)
    else
      let (a, b) := splitAtFirst sep t
      (c :: a, b)

/-- Split at the first occurrence of a substring; `none` when it does not
occur. -/
def splitAtSub (pat : List Char) : List Char → Option (List Char × List Char)
  | [] => if pat.isEmpty then some ([], []) else none
  | c :: t =>
    if listPrefixOf pat (c :: t) then some ([], (c :: t).drop pat.length)
    else
      match splitAtSub pat t with
      | some (a, b) => some (c :: a, b)
      | none => none

/-- The components `urllib.parse.urlparse` yields. -/
structure UrlParts where
  scheme : String
  netloc : String
  path : String
  query : String
  fragment : String
deriving DecidableEq, Repr

/-- Models `urllib.parse.urlparse` for the absolute http(s) URLs this script
handles: the fragment follows the first `#`, the query the first `?`, the
scheme precedes `://`, the netloc runs to the next `/`, and the path is the
rest. -/
def parseUrl (url : String) : UrlParts :=
  let (beforeHash, frag) := splitAtFirst '#' url.data
  let (beforeQ, q) := splitAtFirst '?' beforeHash
  match splitAtSub "://".data beforeQ with
  | some (sch, rest) =>
    let (netloc, pathOpt) := splitAtFirst '/' rest
    let path := match pathOpt with
      | some p => '/' :: p
      | none => []
    ⟨String.mk sch, String.mk netloc, String.mk path,
      String.mk (q.getD []), String.mk (frag.getD [])⟩
  | none => ⟨"", "", String.mk beforeQ, String.mk (q.getD []), String.mk (frag.getD [])⟩

/-- `os.path.basename`: the part after the last `/`. -/
def basename (p : String) : String :=
  String.mk ((p.data.reverse.takeWhile (fun c => c ≠ '/')).reverse)

/-- `os.path.join` for the joins this script performs (relative second
component). -/
def joinPath (a b : String) : String :=
  if strStartsWith b "/" then b
  else if a = "" then b
  else if strEndsWith a "/" then a ++ b
  else a ++ "/" ++ b


/-- Runtime outcome of one `requests.get(url, stream=True)` download in
`download_rpms_all_version`: the stream-to-disk completed (`ok`), a
`requests.exceptions.RequestException` was raised (`netError` — the only
exception class the loop catches), or an `OSError` was raised by
`open`/`write` (`ioError` — caught by no clause). -/
inductive DlOutcome where
  | ok
  | netError
  | ioError
deriving DecidableEq, Repr

/-- The download directory of `download_rpms_all_version` (fedora.py:387). -/
def download_dir : String := "../GlibcDownloads/Fedora"

/-- The local path a download URL is streamed to (fedora.py:394-396):
`os.path.join(download_dir, os.path.basename(urlparse(url).path))`. -/
def downloadLocalPath (url : String) : String :=
  joinPath download_dir (basename (parseUrl url).path)

/-- Embeds the download loop of `download_rpms_all_version`
(src/webscraping/fedora.py:392-418), with the network and disk modelled by
tagging each URL with its runtime outcome.  `ok` appends the local path and
bumps the count; `netError` is caught by the `except
requests.exceptions.RequestException` clause and skips the item; `ioError`
matches no handler, so the exception propagates and the whole loop aborts. -/
def download_rpms_loop :
    List (String × DlOutcome) → List String → Nat → Except Unit (List String × Nat)
  | [], paths, count => .ok (paths, count)
  | (url, outcome) :: rest, paths, count =>
    match outcome with
    | .ok => download_rpms_loop rest (paths ++ [downloadLocalPath url]) (count + 1)
    | .netError => download_rpms_loop rest paths count
    | .ioError => .error ()

/-- Embeds `download_rpms_all_version` (fedora.py:384-418) applied to the
resolved URLs, starting from an empty path list and a zero count. -/
def download_rpms_all_version (items : List (String × DlOutcome)) :
    Except Unit (List String × Nat) :=
  download_rpms_loop items [] 0

/-- The two-item batch refuting claim C5: the first download dies with an
I/O error while writing, the second would succeed. -/
def c5Items : List (String × DlOutcome) :=
  [("https://kojipkgs.fedoraproject.org/a/glibc-2.39-2.fc40.x86_64.rpm", DlOutcome.ioError),
   ("https://kojipkgs.fedoraproject.org/a/glibc-2.40-1.fc41.x86_64.rpm", DlOutcome.ok)]

/-- Claim C5 counterexample: an I/O error on the first item aborts the whole
batch — the loop raises instead of returning the list containing the second
item's local path, which the claim requires. -/
theorem claim_C5_counterexample :
    download_rpms_all_version c5Items = Except.error ()
    ∧ download_rpms_all_version c5Items
        ≠ Except.ok (["../GlibcDownloads/Fedora/glibc-2.40-1.fc41.x86_64.rpm"], 1) := by
  refine ⟨rfl, ?_⟩
  intro h
  rw [show download_rpms_all_version c5Items = Except.error () from rfl] at h
  exact Except.noConfusion h

theorem download_rpms_loop_spec (items : List (String × DlOutcome))
    (h : ∀ i ∈ items, i.2 ≠ DlOutcome.ioError) (paths : List String) (count : Nat) :
    download_rpms_loop items paths count
      = Except.ok
          (paths ++ (items.filter (fun i => i.2 = DlOutcome.ok)).map
              (fun i => downloadLocalPath i.1),
            count + (items.filter (fun i => i.2 = DlOutcome.ok)).length) := by
  induction items generalizing paths count with
  | nil => simp [download_rpms_loop]
  | cons hd tl ih =>
    obtain ⟨url, outcome⟩ := hd
    have htl : ∀ i ∈ tl, i.2 ≠ DlOutcome.ioError := fun i hi => h i (List.mem_cons_of_mem _ hi)
    cases outcome with
    | ok =>
      simp only [download_rpms_loop, ih htl]
      simp [List.filter_cons]
      omega
    | netError =>
      simp only [download_rpms_loop, ih htl]
      simp [List.filter_cons]
    | ioError => exact absurd rfl (h (url, DlOutcome.ioError) (List.mem_cons_self _ _))

/-- Claim C5 (amended): when every failure in the batch is a network error
(`requests.exceptions.RequestException` — the only class the loop catches),
each failing item is skipped in isolation, later items are still attempted,
and the result is exactly the list of local paths of the successful items
with their count.  An `OSError` raised while writing the file is NOT caught:
it propagates and aborts the rest of the batch (see the counterexample). -/
theorem claim_C5 (items : List (String × DlOutcome))
    (h : ∀ i ∈ items, i.2 ≠ DlOutcome.ioError) :
    download_rpms_all_version items
      = Except.ok
          ((items.filter (fun i => i.2 = DlOutcome.ok)).map (fun i => downloadLocalPath i.1),
            (items.filter (fun i => i.2 = DlOutcome.ok)).length) := by
  simpa [download_rpms_all_version] using download_rpms_loop_spec items h [] 0

/-- Witness for amended claim C5: a three-item batch whose middle item fails
with a network error keeps both other downloads. -/
theorem claim_C5_witness :
    (∀ i ∈ [("https://h/a/u1.rpm", DlOutcome.ok), ("https://h/a/u2.rpm", DlOutcome.netError),
            ("https://h/a/u3.rpm", DlOutcome.ok)], i.2 ≠ DlOutcome.ioError)
    ∧ download_rpms_all_version
        [("https://h/a/u1.rpm", DlOutcome.ok), ("https://h/a/u2.rpm", DlOutcome.netError),
         ("https://h/a/u3.rpm", DlOutcome.ok)]
      = Except.ok
          (([("https://h/a/u1.rpm", DlOutcome.ok), ("https://h/a/u2.rpm", DlOutcome.netError),
             ("https://h/a/u3.rpm", DlOutcome.ok)].filter (fun i => i.2 = DlOutcome.ok)).map
              (fun i => downloadLocalPath i.1),
            ([("https://h/a/u1.rpm", DlOutcome.ok), ("https://h/a/u2.rpm", DlOutcome.netError),
              ("https://h/a/u3.rpm", DlOutcome.ok)].filter (fun i => i.2 = DlOutcome.ok)).length) :=
  ⟨by decide, claim_C5 _ (by decide)⟩

/-! ## Claim C4: the build resolver -/
/-- Consume a literal at the head of the list. -/
def eatLit (pat l : List Char) : Option (List Char) :=
  if listPrefixOf pat l then some (l.drop pat.length) else none

/-- Consume a maximal nonempty digit run at the head of the list. -/
def eatDigits (l : List Char) : Option (List Char) :=
  match matchDigits l with
  | some (_, r) => some r
  | none => none

/-- Match the anchored pattern `glibc-\d+\.\d+-\d+\.fc\d+\.{arch}\.rpm` at the
head of the list (every `\d+` is followed by a non-digit literal, so greedy
digit runs need no backtracking). -/
def matchArchRpmAt (arch : String) (l : List Char) : Bool :=
  (do
    let r1 ← eatLit "glibc-".data l
    let r2 ← eatDigits r1
    let r3 ← eatLit ['.'] r2
    let r4 ← eatDigits r3
    let r5 ← eatLit ['-'] r4
    let r6 ← eatDigits r5
    let r7 ← eatLit ".fc".data r6
    let r8 ← eatDigits r7
    let r9 ← eatLit ['.'] r8
    let r10 ← eatLit arch.data r9
    let _ ← eatLit ".rpm".data r10
    pure ()).isSome

/-- `re.search` for the per-architecture RPM filename pattern of
`extract_rpm_urls_from_buildinfo` (fedora.py:213). -/
def searchArchRpm (arch : String) : List Char → Bool
  | [] => matchArchRpmAt arch []
  | c :: t => matchArchRpmAt arch (c :: t) || searchArchRpm arch t

/-- The fixed architecture set of the resolver (fedora.py:186). -/
def target_architectures : List String := ["aarch64", "i686", "x86_64"]

/-- The subpackage exclusion substrings of the resolver (fedora.py:206). -/
def excludeTokens : List String :=
  ["debuginfo", "debugsource", "devel", "headers", "static", "utils"]

/-- The outer link filter of `extract_rpm_urls_from_buildinfo`
(fedora.py:204-206): an `.rpm` link for glibc containing no exclusion
substring. -/
def hrefEligible (href : String) : Bool :=
  strEndsWith href ".rpm" && strContains href "glibc-"
    && !(excludeTokens.any (fun t => strContains href t))

/-- The per-architecture condition of the inner loop (fedora.py:209-213): the
architecture path segment occurs, the architecture is not resolved yet, and
the strict filename pattern matches somewhere in the link. -/
def archCond (rpm_urls : List (String × String)) (href : String) (arch : String) : Bool :=
  strContains href ("/" ++ arch ++ "/") && (alistFind rpm_urls arch).isNone
    && searchArchRpm arch href.data

/-- One iteration of the link loop of `extract_rpm_urls_from_buildinfo`
(fedora.py:200-215): an eligible link is assigned to the first architecture,
in fixed order, whose condition holds (the `break` stops the inner loop after
one assignment). -/
def considerRpmLink (rpm_urls : List (String × String)) (href : String) :
    List (String × String) :=
  if hrefEligible href then
    match target_architectures.find? (archCond rpm_urls href) with
    | some arch => alistSet rpm_urls arch href
    | none => rpm_urls
  else rpm_urls

/-- Embeds `extract_rpm_urls_from_buildinfo` (fedora.py:175-217) applied to
the page-order list of anchor targets of the build-detail page. -/
def extract_rpm_urls_from_buildinfo (hrefs : List String) : List (String × String) :=
  hrefs.foldl considerRpmLink []

/-- A link "matches an architecture": it passes the outer filter, carries the
architecture path segment, and matches the strict filename pattern.  This is
the claim's notion of matching link. -/
def linkMatches (arch href : String) : Bool :=
  hrefEligible href && strContains href ("/" ++ arch ++ "/") && searchArchRpm arch href.data




theorem alistFind_some_mem_keys {κ β : Type} [DecidableEq κ]
    (d : List (κ × β)) (k : κ) (v : β) (h : alistFind d k = some v) : k ∈ alistKeys d := by
  induction d with
  | nil => simp [alistFind] at h
  | cons hd tl ih =>
    obtain ⟨k₀, v₀⟩ := hd
    simp only [alistFind] at h
    by_cases hk : k = k₀
    · subst hk; simp [alistKeys]
    · rw [if_neg hk] at h
      simp only [alistKeys, List.map_cons, List.mem_cons]
      exact Or.inr (ih h)

theorem linkMatches_of_archCond (acc : List (String × String)) (href arch : String)
    (he : hrefEligible href = true) (h : archCond acc href arch = true) :
    linkMatches arch href = true := by
  simp only [archCond, Bool.and_eq_true] at h
  simp [linkMatches, he, h.1.1, h.2]

theorem archCond_eq_false_of_not_linkMatches (acc : List (String × String))
    (href arch : String) (he : hrefEligible href = true)
    (h : linkMatches arch href = false) : archCond acc href arch = false := by
  simp only [linkMatches, he, Bool.true_and, Bool.and_eq_false_iff] at h
  simp only [archCond, Bool.and_eq_false_iff]
  rcases h with h | h
  · exact Or.inl (Or.inl h)
  · exact Or.inr h

theorem considerRpmLink_find (acc : List (String × String)) (href : String)
    (hone : ∀ a ∈ target_architectures, ∀ b ∈ target_architectures,
        linkMatches a href = true → linkMatches b href = true → a = b)
    (arch : String) (ha : arch ∈ target_architectures) :
    alistFind (considerRpmLink acc href) arch
      = (alistFind acc arch).or (if linkMatches arch href then some href else none) := by
  by_cases he : hrefEligible href
  case neg =>
    have hlm : linkMatches arch href = false := by
      simp [linkMatches, Bool.eq_false_iff.mpr he]
    simp [considerRpmLink, Bool.eq_false_iff.mpr he, hlm]
  case pos =>
    simp only [considerRpmLink, if_pos he]
    cases hf : target_architectures.find? (archCond acc href) with
    | none =>
      rw [List.find?_eq_none] at hf
      have hcond : archCond acc href arch = false :=
        Bool.eq_false_iff.mpr (hf arch ha)
      by_cases hlm : linkMatches arch href
      · have hsome : ∃ u, alistFind acc arch = some u := by
          simp only [linkMatches, Bool.and_eq_true] at hlm
          rw [archCond, hlm.1.2, hlm.2] at hcond
          simp only [Bool.and_true, Bool.true_and] at hcond
          cases hfind : alistFind acc arch with
          | none => rw [hfind] at hcond; simp at hcond
          | some u => exact ⟨u, rfl⟩
        obtain ⟨u, hu⟩ := hsome
        rw [hlm, hu]
        simp
      · rw [Bool.eq_false_iff.mpr hlm]
        simp
    | some a' =>
      have ha'mem : a' ∈ target_architectures := List.mem_of_find?_eq_some hf
      have ha'cond : archCond acc href a' = true := List.find?_some hf
      have ha'lm : linkMatches a' href = true :=
        linkMatches_of_archCond acc href a' he ha'cond
      by_cases heq : arch = a'
      · subst heq
        have hnone : alistFind acc arch = none := by
          simp only [archCond, Bool.and_eq_true] at ha'cond
          simpa using ha'cond.1.2
        rw [alistFind_set_self, hnone, ha'lm]
        simp
      · rw [alistFind_set_other acc a' arch href heq]
        have hlm : linkMatches arch href = false := by
          by_contra hc
          rw [Bool.not_eq_false] at hc
          exact heq (hone arch ha a' ha'mem hc ha'lm)
        rw [hlm]
        simp

theorem extract_fold_find (hrefs : List String) (acc : List (String × String))
    (hone : ∀ href ∈ hrefs, ∀ a ∈ target_architectures, ∀ b ∈ target_architectures,
        linkMatches a href = true → linkMatches b href = true → a = b)
    (arch : String) (ha : arch ∈ target_architectures) :
    alistFind (hrefs.foldl considerRpmLink acc) arch
      = (alistFind acc arch).or (hrefs.find? (fun href => linkMatches arch href)) := by
  induction hrefs generalizing acc with
  | nil => simp
  | cons hd tl ih =>
    have hone' : ∀ href ∈ tl, ∀ a ∈ target_architectures, ∀ b ∈ target_architectures,
        linkMatches a href = true → linkMatches b href = true → a = b :=
      fun href hh => hone href (List.mem_cons_of_mem _ hh)
    rw [List.foldl_cons, ih (considerRpmLink acc hd) hone',
      considerRpmLink_find acc hd (hone hd (List.mem_cons_self _ _)) arch ha,
      Option.or_assoc]
    congr 1
    by_cases hlm : linkMatches arch hd
    · rw [hlm, List.find?_cons_of_pos _ (by simpa using hlm)]
      simp
    · rw [Bool.eq_false_iff.mpr hlm, List.find?_cons_of_neg _ (by simpa using hlm)]
      simp

theorem extract_fold_keys (hrefs : List String) (acc : List (String × String)) :
    ∀ k ∈ alistKeys (hrefs.foldl considerRpmLink acc),
      k ∈ target_architectures ∨ k ∈ alistKeys acc := by
  induction hrefs generalizing acc with
  | nil => exact fun k hk => Or.inr hk
  | cons hd tl ih =>
    intro k hk
    rw [List.foldl_cons] at hk
    rcases ih (considerRpmLink acc hd) k hk with h | h
    · exact Or.inl h
    · unfold considerRpmLink at h
      by_cases he : hrefEligible hd
      · rw [if_pos he] at h
        cases hf : target_architectures.find? (archCond acc hd) with
        | none => rw [hf] at h; exact Or.inr h
        | some a' =>
          rw [hf] at h
          rcases mem_alistKeys_set acc a' k hd h with rfl | h'
          · exact Or.inl (List.mem_of_find?_eq_some hf)
          · exact Or.inr h'
      · rw [if_neg he] at h; exact Or.inr h

theorem extract_fold_nodup (hrefs : List String) (acc : List (String × String))
    (h : (alistKeys acc).Nodup) :
    (alistKeys (hrefs.foldl considerRpmLink acc)).Nodup := by
  induction hrefs generalizing acc with
  | nil => exact h
  | cons hd tl ih =>
    rw [List.foldl_cons]
    refine ih (considerRpmLink acc hd) ?_
    unfold considerRpmLink
    by_cases he : hrefEligible hd
    · rw [if_pos he]
      cases target_architectures.find? (archCond acc hd) with
      | none => exact h
      | some a' => exact alistKeys_set_nodup acc a' hd h
    · rw [if_neg he]; exact h

/-- Claim C4 (amended): for a build-detail page on which no single link
matches two different target architectures (always the case for real pages,
where one filename determines one architecture), the resolver maps only
architectures from the fixed set, each at most once, each to the FIRST
page-order link matching it, and no mapped URL contains an exclusion
substring.  Without that proviso the `break` after an assignment can consume
a multi-architecture link for the earlier architecture only, making a later
architecture resolve to a later link (see the counterexample). -/
theorem claim_C4 (hrefs : List String)
    (hone : ∀ href ∈ hrefs, ∀ a ∈ target_architectures, ∀ b ∈ target_architectures,
        linkMatches a href = true → linkMatches b href = true → a = b) :
    (∀ k ∈ alistKeys (extract_rpm_urls_from_buildinfo hrefs), k ∈ target_architectures)
    ∧ (alistKeys (extract_rpm_urls_from_buildinfo hrefs)).Nodup
    ∧ (∀ arch ∈ target_architectures,
        alistFind (extract_rpm_urls_from_buildinfo hrefs) arch
          = hrefs.find? (fun href => linkMatches arch href))
    ∧ (∀ arch url, alistFind (extract_rpm_urls_from_buildinfo hrefs) arch = some url →
        ∀ t ∈ excludeTokens, strContains url t = false) := by
  refine ⟨?_, ?_, ?_, ?_⟩
  · intro k hk
    rcases extract_fold_keys hrefs [] k hk with h | h
    · exact h
    · simp [alistKeys] at h
  · exact extract_fold_nodup hrefs [] (by simp [alistKeys])
  · intro arch ha
    rw [extract_rpm_urls_from_buildinfo, extract_fold_find hrefs [] hone arch ha]
    simp [alistFind]
  · intro arch url hfind t ht
    have hmemk : arch ∈ alistKeys (extract_rpm_urls_from_buildinfo hrefs) :=
      alistFind_some_mem_keys _ arch url hfind
    have ha : arch ∈ target_architectures := by
      rcases extract_fold_keys hrefs [] arch hmemk with h | h
      · exact h
      · simp [alistKeys] at h
    have := extract_fold_find hrefs [] hone arch ha
    rw [extract_rpm_urls_from_buildinfo] at hfind
    rw [hfind] at this
    have hfound : hrefs.find? (fun href => linkMatches arch href) = some url := by
      simpa [alistFind] using this.symm
    have hlm : linkMatches arch url = true := by
      have := List.find?_some hfound
      simpa using this
    simp only [linkMatches, hrefEligible, Bool.and_eq_true] at hlm
    have hnoex : excludeTokens.any (fun tk => strContains url tk) = false := by
      have := hlm.1.1.2
      simpa using this
    rw [List.any_eq_false] at hnoex
    simpa using hnoex t ht



/-- A link that matches both `aarch64` (path segment and filename pattern) and
`x86_64` (path segment and filename pattern): the inner `break` lets `aarch64`
claim it and skips `x86_64` for this link entirely. -/
def c4Href1 : String :=
  "/aarch64/x86_64/glibc-2.39-2.fc40.aarch64.rpm.glibc-2.39-2.fc40.x86_64.rpm"

/-- A later plain `x86_64` link. -/
def c4Href2 : String := "/x86_64/glibc-2.40-1.fc41.x86_64.rpm"

/-- Claim C4 counterexample: on this page the first link matches `x86_64`
(page order makes it the first such link), yet the resolver maps `x86_64` to
the second link, because the `break` after assigning the first link to
`aarch64` skips the other architectures for that link. -/
theorem claim_C4_counterexample :
    linkMatches "x86_64" c4Href1 = true
    ∧ List.find? (fun h => linkMatches "x86_64" h) [c4Href1, c4Href2] = some c4Href1
    ∧ alistFind (extract_rpm_urls_from_buildinfo [c4Href1, c4Href2]) "x86_64" = some c4Href2
    ∧ c4Href1 ≠ c4Href2 := ⟨rfl, rfl, rfl, by decide⟩

/-- A realistic detail page: one aarch64 link, one debuginfo link (excluded),
two x86_64 links, no i686 link. -/
def c4PageHrefs : List String :=
  ["/aarch64/glibc-2.39-2.fc40.aarch64.rpm",
   "/x86_64/glibc-debuginfo-2.39-2.fc40.x86_64.rpm",
   "/x86_64/glibc-2.39-2.fc40.x86_64.rpm",
   "/x86_64/glibc-2.39-3.fc40.x86_64.rpm"]

/-- Witness for amended claim C4 on a realistic page. -/
theorem claim_C4_witness :
    (∀ href ∈ c4PageHrefs, ∀ a ∈ target_architectures, ∀ b ∈ target_architectures,
        linkMatches a href = true → linkMatches b href = true → a = b)
    ∧ ((∀ k ∈ alistKeys (extract_rpm_urls_from_buildinfo c4PageHrefs),
          k ∈ target_architectures)
      ∧ (alistKeys (extract_rpm_urls_from_buildinfo c4PageHrefs)).Nodup
      ∧ (∀ arch ∈ target_architectures,
          alistFind (extract_rpm_urls_from_buildinfo c4PageHrefs) arch
            = c4PageHrefs.find? (fun href => linkMatches arch href))
      ∧ (∀ arch url,
          alistFind (extract_rpm_urls_from_buildinfo c4PageHrefs) arch = some url →
            ∀ t ∈ excludeTokens, strContains url t = false)) :=
  ⟨by decide, claim_C4 c4PageHrefs (by decide)⟩

/-! ## The version catalog crawler: Claims C1, C9, C10 -/
/-- Match the anchored crawler pattern `glibc-(\d+\.\d+)-(\d+)\.(fc\d+)`
(src/webscraping/fedora.py:41) against anchor text, as `pattern.match` does:
anchored at the start, trailing text allowed.  Returns
(version, release, disttag). -/
def parseGlibcAnchor (text : String) : Option (String × Nat × String) := do
  let r1 ← eatLit "glibc-".data text.data
  let (v1, r2) ← matchDigits r1
  let r3 ← eatLit ['.'] r2
  let (v2, r4) ← matchDigits r3
  let r5 ← eatLit ['-'] r4
  let (rel, r6) ← matchDigits r5
  let r7 ← eatLit ['.'] r6
  let r8 ← eatLit "fc".data r7
  let (fcn, _) ← matchDigits r8
  pure (String.mk (v1 ++ '.' :: v2), natOfDigits rel, String.mk ('f' :: 'c' :: fcn))

/-- Match `buildID=(\d+)` at the head of the list. -/
def matchBuildIdAt (l : List Char) : Option String := do
  let r ← eatLit "buildID=".data l
  let (ds, _) ← matchDigits r
  pure (String.mk ds)

/-- `re.search(r'buildID=(\d+)', href)` (fedora.py:60): the leftmost match. -/
def extractBuildIdFrom : List Char → Option String
  | [] => none
  | c :: t =>
    match matchBuildIdAt (c :: t) with
    | some bid => some bid
    | none => extractBuildIdFrom t

/-- An HTML anchor as the crawler sees it: visible text and link target. -/
structure Anchor where
  text : String
  href : String
deriving DecidableEq, Repr

/-- One value of the crawler's `version_dict` (fedora.py:73-78). -/
structure GlibcEntry where
  release : Nat
  build_id : String
  full_name : String
  source_url : String
deriving DecidableEq, Repr

/-- The crawler's composite key `(version, disttag)` (fedora.py:68). -/
abbrev GKey := String × String

/-- The crawler's `version_dict`. -/
abbrev GDict := List (GKey × GlibcEntry)

/-- The dedup insertion of `scrape_glibc_versions_from_page`
(fedora.py:70-78): store the new entry only when no entry exists for the key
or the new release is strictly lower. -/
def dedupInsert (d : GDict) (k : GKey) (e : GlibcEntry) : GDict :=
  match alistFind d k with
  | none => alistSet d k e
  | some old => if e.release < old.release then alistSet d k e else d

/-- One anchor of the listing-page loop of `scrape_glibc_versions_from_page`
(fedora.py:46-78).  The Boolean component models `glibc_found`: it becomes
true as soon as an anchor's stripped text matches the version pattern, whether
or not the link carries a `buildID` and an entry is stored. -/
def considerAnchor (url : String) (st : Bool × GDict) (a : Anchor) : Bool × GDict :=
  match parseGlibcAnchor (pyStrip a.text) with
  | none => st
  | some (version, release, disttag) =>
    match extractBuildIdFrom a.href.data with
    | some bid =>
      if strStartsWith disttag "fc" then
        (true, dedupInsert st.2 (version, disttag) ⟨release, bid, pyStrip a.text, url⟩)
      else (true, st.2)
    | none => (true, st.2)

/-- Embeds `scrape_glibc_versions_from_page` (fedora.py:19-80) on a
successfully fetched page given as its list of anchors: fold the anchor loop
from `glibc_found = False` and the accumulated dictionary.  Returns
`(glibc_found, updated version_dict)`. -/
def scrape_glibc_versions_from_page (url : String) (anchors : List Anchor) (d : GDict) :
    Bool × GDict :=
  anchors.foldl (considerAnchor url) (false, d)

/-- The catalog row an anchor inserts, when its text matches and its link
carries a build id (fedora.py:51-78). -/
def entryOf (url : String) (a : Anchor) : Option (GKey × GlibcEntry) :=
  match parseGlibcAnchor (pyStrip a.text) with
  | none => none
  | some (version, release, disttag) =>
    match extractBuildIdFrom a.href.data with
    | some bid =>
      if strStartsWith disttag "fc" then
        some ((version, disttag), ⟨release, bid, pyStrip a.text, url⟩)
      else none
    | none => none

/-- The dedup insertion folded over a sequence of catalog rows. -/
def dedupFold (rows : List (GKey × GlibcEntry)) (d : GDict) : GDict :=
  rows.foldl (fun d r => dedupInsert d r.1 r.2) d

/-- The entries among `rows` whose key is `k`, in encounter order. -/
def entriesFor (k : GKey) (rows : List (GKey × GlibcEntry)) : List GlibcEntry :=
  (rows.filter (fun r => r.1 = k)).map Prod.snd

/-- The dedup comparison as a step function on the retained entry. -/
def minStep (acc : Option GlibcEntry) (e : GlibcEntry) : Option GlibcEntry :=
  match acc with
  | none => some e
  | some old => if e.release < old.release then some e else some old

theorem alistFind_dedupInsert (d : GDict) (k k' : GKey) (e : GlibcEntry) :
    alistFind (dedupInsert d k e) k'
      = if k' = k then minStep (alistFind d k) e else alistFind d k' := by
  unfold dedupInsert minStep
  cases hf : alistFind d k with
  | none =>
    dsimp only
    by_cases hk : k' = k
    · subst hk; simp [alistFind_set_self]
    · simp [hk, alistFind_set_other d k k' e hk]
  | some old =>
    dsimp only
    by_cases hlt : e.release < old.release
    · rw [if_pos hlt]
      by_cases hk : k' = k
      · subst hk; simp [alistFind_set_self, hlt]
      · simp [hk, alistFind_set_other d k k' e hk]
    · rw [if_neg hlt]
      by_cases hk : k' = k
      · subst hk; simp [hf, hlt]
      · simp [hk]

theorem dedupFold_find (rows : List (GKey × GlibcEntry)) (d : GDict) (k : GKey) :
    alistFind (dedupFold rows d) k = (entriesFor k rows).foldl minStep (alistFind d k) := by
  induction rows generalizing d with
  | nil => simp [dedupFold, entriesFor]
  | cons r rs ih =>
    obtain ⟨rk, re⟩ := r
    rw [dedupFold, List.foldl_cons]
    rw [show List.foldl (fun d r => dedupInsert d r.1 r.2) (dedupInsert d rk re) rs
        = dedupFold rs (dedupInsert d rk re) from rfl]
    rw [ih (dedupInsert d rk re)]
    by_cases hk : rk = k
    · subst hk
      rw [alistFind_dedupInsert d rk rk re, if_pos rfl]
      have : entriesFor rk ((rk, re) :: rs) = re :: entriesFor rk rs := by
        simp [entriesFor]
      rw [this, List.foldl_cons]
    · rw [alistFind_dedupInsert d rk k re, if_neg (fun h => hk h.symm)]
      have : entriesFor k ((rk, re) :: rs) = entriesFor k rs := by
        simp [entriesFor, hk]
      rw [this]

theorem foldl_minStep_acc_some (es : List GlibcEntry) (o : GlibcEntry) :
    ∃ e, es.foldl minStep (some o) = some e := by
  induction es generalizing o with
  | nil => exact ⟨o, rfl⟩
  | cons x rest ih =>
    rw [List.foldl_cons]
    unfold minStep
    dsimp only
    by_cases hlt : x.release < o.release
    · rw [if_pos hlt]; exact ih x
    · rw [if_neg hlt]; exact ih o

theorem foldl_minStep_first_min (es : List GlibcEntry) (o e : GlibcEntry)
    (h : es.foldl minStep (some o) = some e) :
    (e = o ∧ ∀ x ∈ es, o.release ≤ x.release)
    ∨ (∃ l₁ l₂, es = l₁ ++ e :: l₂ ∧ e.release < o.release
        ∧ (∀ x ∈ l₁, e.release < x.release) ∧ (∀ x ∈ l₂, e.release ≤ x.release)) := by
  induction es generalizing o with
  | nil =>
    left
    simp only [List.foldl_nil, Option.some.injEq] at h
    exact ⟨h.symm, by simp⟩
  | cons x rest ih =>
    rw [List.foldl_cons] at h
    unfold minStep at h
    dsimp only at h
    by_cases hlt : x.release < o.release
    · rw [if_pos hlt] at h
      rcases ih x h with ⟨rfl, hall⟩ | ⟨l₁, l₂, heq, hxo, hl₁, hl₂⟩
      · right
        exact ⟨[], rest, rfl, hlt, by simp, hall⟩
      · right
        refine ⟨x :: l₁, l₂, by rw [heq]; rfl, Nat.lt_trans hxo hlt, ?_, hl₂⟩
        intro y hy
        rcases List.mem_cons.mp hy with rfl | hy'
        · exact hxo
        · exact hl₁ y hy'
    · rw [if_neg hlt] at h
      rcases ih o h with ⟨rfl, hall⟩ | ⟨l₁, l₂, heq, hxo, hl₁, hl₂⟩
      · left
        refine ⟨rfl, ?_⟩
        intro y hy
        rcases List.mem_cons.mp hy with rfl | hy'
        · omega
        · exact hall y hy'
      · right
        refine ⟨x :: l₁, l₂, by rw [heq]; rfl, hxo, ?_, hl₂⟩
        intro y hy
        rcases List.mem_cons.mp hy with rfl | hy'
        · omega
        · exact hl₁ y hy'

theorem foldl_minStep_none_first_min (es : List GlibcEntry) (e : GlibcEntry)
    (h : es.foldl minStep none = some e) :
    ∃ l₁ l₂, es = l₁ ++ e :: l₂ ∧ (∀ x ∈ l₁, e.release < x.release)
      ∧ (∀ x ∈ l₂, e.release ≤ x.release) := by
  cases es with
  | nil => simp [List.foldl_nil] at h
  | cons x rest =>
    rw [List.foldl_cons] at h
    rw [show minStep none x = some x from rfl] at h
    rcases foldl_minStep_first_min rest x e h with ⟨rfl, hall⟩ | ⟨l₁, l₂, heq, hxo, hl₁, hl₂⟩
    · exact ⟨[], rest, rfl, by simp, hall⟩
    · refine ⟨x :: l₁, l₂, by rw [heq]; rfl, ?_, hl₂⟩
      intro y hy
      rcases List.mem_cons.mp hy with rfl | hy'
      · exact hxo
      · exact hl₁ y hy'

theorem dedupFold_nodup (rows : List (GKey × GlibcEntry)) (d : GDict)
    (h : (alistKeys d).Nodup) : (alistKeys (dedupFold rows d)).Nodup := by
  induction rows generalizing d with
  | nil => exact h
  | cons r rs ih =>
    rw [dedupFold, List.foldl_cons]
    refine ih (dedupInsert d r.1 r.2) ?_
    unfold dedupInsert
    cases alistFind d r.1 with
    | none => exact alistKeys_set_nodup d r.1 r.2 h
    | some old =>
      dsimp only
      by_cases hlt : r.2.release < old.release
      · rw [if_pos hlt]; exact alistKeys_set_nodup d r.1 r.2 h
      · rw [if_neg hlt]; exact h

theorem considerAnchor_dict (url : String) (st : Bool × GDict) (a : Anchor) :
    (considerAnchor url st a).2
      = match entryOf url a with
        | none => st.2
        | some r => dedupInsert st.2 r.1 r.2 := by
  unfold considerAnchor entryOf
  cases parseGlibcAnchor (pyStrip a.text) with
  | none => rfl
  | some p =>
    obtain ⟨version, release, disttag⟩ := p
    cases extractBuildIdFrom a.href.data with
    | none => rfl
    | some bid =>
      by_cases hfc : strStartsWith disttag "fc"
      · simp [hfc]
      · simp [hfc]

theorem scrape_dict_eq_dedupFold (url : String) (anchors : List Anchor) :
    ∀ st : Bool × GDict,
      (anchors.foldl (considerAnchor url) st).2
        = dedupFold (anchors.filterMap (entryOf url)) st.2 := by
  induction anchors with
  | nil => intro st; simp [dedupFold]
  | cons a rest ih =>
    intro st
    rw [List.foldl_cons, ih (considerAnchor url st a)]
    rw [considerAnchor_dict url st a]
    cases he : entryOf url a with
    | none => simp [List.filterMap_cons, he]
    | some r => simp [List.filterMap_cons, he, dedupFold]

/-- Claim C1: among the catalog rows a page's anchors insert, each key is
retained exactly once, and the retained entry is one of that key's rows,
carrying the minimum release value over all rows with that key; the
per-anchor insertion of `scrape_glibc_versions_from_page` is exactly this
dedup fold. -/
theorem claim_C1 (rows : List (GKey × GlibcEntry)) (k : GKey)
    (url : String) (anchors : List Anchor) (d : GDict)
    (h : k ∈ rows.map Prod.fst) :
    (∃ e, alistFind (dedupFold rows []) k = some e
      ∧ e ∈ entriesFor k rows
      ∧ (∀ x ∈ entriesFor k rows, e.release ≤ x.release)
      ∧ (alistKeys (dedupFold rows [])).Nodup)
    ∧ (scrape_glibc_versions_from_page url anchors d).2
        = dedupFold (anchors.filterMap (entryOf url)) d := by
  constructor
  · have hne : entriesFor k rows ≠ [] := by
      rw [List.mem_map] at h
      obtain ⟨r, hr, rfl⟩ := h
      simp only [entriesFor, ne_eq, List.map_eq_nil_iff, List.filter_eq_nil_iff]
      push_neg
      exact ⟨r, hr, by simp⟩
    have hfind := dedupFold_find rows [] k
    rw [show alistFind ([] : GDict) k = none from rfl] at hfind
    obtain ⟨e, he⟩ : ∃ e, (entriesFor k rows).foldl minStep none = some e := by
      cases hes : entriesFor k rows with
      | nil => exact absurd hes hne
      | cons x rest =>
        rw [List.foldl_cons, show minStep none x = some x from rfl]
        exact foldl_minStep_acc_some rest x
    refine ⟨e, by rw [hfind, he], ?_, ?_, ?_⟩
    · obtain ⟨l₁, l₂, heq, _, _⟩ := foldl_minStep_none_first_min _ e he
      rw [heq]
      simp
    · obtain ⟨l₁, l₂, heq, hl₁, hl₂⟩ := foldl_minStep_none_first_min _ e he
      intro x hx
      rw [heq] at hx
      rcases List.mem_append.mp hx with hx' | hx'
      · exact Nat.le_of_lt (hl₁ x hx')
      · rcases List.mem_cons.mp hx' with rfl | hx''
        · exact Nat.le_refl _
        · exact hl₂ x hx''
    · exact dedupFold_nodup rows [] (by simp [alistKeys])
  · exact scrape_dict_eq_dedupFold url anchors (false, d)

/-- Witness for claim C1: two rows with key (2.39, fc40) and releases 5 and 3
— the retained entry is the release-3 row (the spec's end-to-end scenario A). -/
theorem claim_C1_witness :
    (("2.39", "fc40") ∈ ([((("2.39", "fc40") : GKey), (⟨5, "100", "glibc-2.39-5.fc40", "p1"⟩ : GlibcEntry)),
        ((("2.39", "fc40") : GKey), (⟨3, "101", "glibc-2.39-3.fc40", "p1"⟩ : GlibcEntry))].map Prod.fst))
    ∧ ((∃ e, alistFind (dedupFold [((("2.39", "fc40") : GKey), (⟨5, "100", "glibc-2.39-5.fc40", "p1"⟩ : GlibcEntry)),
            ((("2.39", "fc40") : GKey), (⟨3, "101", "glibc-2.39-3.fc40", "p1"⟩ : GlibcEntry))] []) ("2.39", "fc40") = some e
        ∧ e ∈ entriesFor ("2.39", "fc40") [((("2.39", "fc40") : GKey), (⟨5, "100", "glibc-2.39-5.fc40", "p1"⟩ : GlibcEntry)),
            ((("2.39", "fc40") : GKey), (⟨3, "101", "glibc-2.39-3.fc40", "p1"⟩ : GlibcEntry))]
        ∧ (∀ x ∈ entriesFor ("2.39", "fc40") [((("2.39", "fc40") : GKey), (⟨5, "100", "glibc-2.39-5.fc40", "p1"⟩ : GlibcEntry)),
            ((("2.39", "fc40") : GKey), (⟨3, "101", "glibc-2.39-3.fc40", "p1"⟩ : GlibcEntry))], e.release ≤ x.release)
        ∧ (alistKeys (dedupFold [((("2.39", "fc40") : GKey), (⟨5, "100", "glibc-2.39-5.fc40", "p1"⟩ : GlibcEntry)),
            ((("2.39", "fc40") : GKey), (⟨3, "101", "glibc-2.39-3.fc40", "p1"⟩ : GlibcEntry))] [])).Nodup)
      ∧ (scrape_glibc_versions_from_page "p1" [] []).2
          = dedupFold (List.filterMap (entryOf "p1") []) []) :=
  ⟨by decide, claim_C1 _ ("2.39", "fc40") "p1" [] [] (by decide)⟩



/-- Claim C10: the dedup comparison is strictly less-than, so a newly scraped
row whose release equals the stored entry's release leaves the stored entry
unchanged (its build id, display name and source page survive); consequently
the entry a key retains is the FIRST row attaining the minimal release: every
earlier row has a strictly greater release, every later row a
greater-or-equal one. -/
theorem claim_C10 (d : GDict) (k : GKey) (eold enew : GlibcEntry)
    (rows : List (GKey × GlibcEntry)) (e : GlibcEntry) :
    (alistFind d k = some eold → enew.release = eold.release → dedupInsert d k enew = d)
    ∧ (alistFind (dedupFold rows []) k = some e →
        ∃ l₁ l₂, entriesFor k rows = l₁ ++ e :: l₂
          ∧ (∀ x ∈ l₁, e.release < x.release) ∧ (∀ x ∈ l₂, e.release ≤ x.release)) := by
  constructor
  · intro hf heq
    unfold dedupInsert
    rw [hf]
    dsimp only
    rw [if_neg (by omega)]
  · intro hf
    rw [dedupFold_find rows [] k, show alistFind ([] : GDict) k = none from rfl] at hf
    exact foldl_minStep_none_first_min _ e hf

/-- Witness for claim C10: an equal-release insertion is a no-op, and of two
release-3 rows for the same key the first one (build id 101) is retained. -/
theorem claim_C10_witness :
    (dedupInsert [((("2.39", "fc40") : GKey), (⟨3, "101", "glibc-2.39-3.fc40", "p1"⟩ : GlibcEntry))]
        ("2.39", "fc40") ⟨3, "999", "glibc-2.39-3.fc40", "p2"⟩
      = [((("2.39", "fc40") : GKey), (⟨3, "101", "glibc-2.39-3.fc40", "p1"⟩ : GlibcEntry))])
    ∧ ∃ l₁ l₂,
        entriesFor ("2.39", "fc40")
            [((("2.39", "fc40") : GKey), (⟨3, "101", "glibc-2.39-3.fc40", "p1"⟩ : GlibcEntry)),
             ((("2.39", "fc40") : GKey), (⟨3, "999", "glibc-2.39-3.fc40", "p2"⟩ : GlibcEntry))]
          = l₁ ++ (⟨3, "101", "glibc-2.39-3.fc40", "p1"⟩ : GlibcEntry) :: l₂
        ∧ (∀ x ∈ l₁, (3 : Nat) < x.release) ∧ (∀ x ∈ l₂, (3 : Nat) ≤ x.release) :=
  ⟨(claim_C10 [((("2.39", "fc40") : GKey), (⟨3, "101", "glibc-2.39-3.fc40", "p1"⟩ : GlibcEntry))]
      ("2.39", "fc40") ⟨3, "101", "glibc-2.39-3.fc40", "p1"⟩
      ⟨3, "999", "glibc-2.39-3.fc40", "p2"⟩ [] ⟨0, "", "", ""⟩).1 rfl rfl,
   (claim_C10 [] ("2.39", "fc40") ⟨0, "", "", ""⟩ ⟨0, "", "", ""⟩
      [((("2.39", "fc40") : GKey), (⟨3, "101", "glibc-2.39-3.fc40", "p1"⟩ : GlibcEntry)),
       ((("2.39", "fc40") : GKey), (⟨3, "999", "glibc-2.39-3.fc40", "p2"⟩ : GlibcEntry))]
      ⟨3, "101", "glibc-2.39-3.fc40", "p1"⟩).2 rfl⟩

theorem scrape_found_eq (url : String) (anchors : List Anchor) :
    ∀ st : Bool × GDict,
      (anchors.foldl (considerAnchor url) st).1
        = (st.1 || anchors.any (fun a => (parseGlibcAnchor (pyStrip a.text)).isSome)) := by
  induction anchors with
  | nil => intro st; simp
  | cons a rest ih =>
    intro st
    rw [List.foldl_cons, ih]
    have hstep : (considerAnchor url st a).1
        = (st.1 || (parseGlibcAnchor (pyStrip a.text)).isSome) := by
      unfold considerAnchor
      cases parseGlibcAnchor (pyStrip a.text) with
      | none => simp
      | some p =>
        obtain ⟨v, r, dtag⟩ := p
        cases extractBuildIdFrom a.href.data with
        | none => simp
        | some bid =>
          by_cases hfc : strStartsWith dtag "fc" <;> simp [hfc]
    rw [hstep]
    simp [List.any_cons, Bool.or_assoc]

/-- Claim C9: the per-page scraper reports success (so the crawl goes on to a
next page) exactly when some anchor's stripped text matches the version
pattern, whether or not any entry was added to the dictionary; in particular
a page whose only matching anchor lacks a `buildID` parameter reports success
while the dictionary stays empty. -/
theorem claim_C9 (url : String) (anchors : List Anchor) (d : GDict) :
    (scrape_glibc_versions_from_page url anchors d).1
      = anchors.any (fun a => (parseGlibcAnchor (pyStrip a.text)).isSome)
    ∧ scrape_glibc_versions_from_page "p"
        [⟨"glibc-2.39-2.fc40", "https://koji.fedoraproject.org/koji/buildinfo"⟩] []
      = (true, []) := by
  constructor
  · rw [scrape_glibc_versions_from_page, scrape_found_eq url anchors (false, d)]
    simp
  · rfl

/-! ## Pagination: Claims C7 and C8 -/
theorem alistFind_some_mem_values {κ β : Type} [DecidableEq κ]
    (l : List (κ × β)) (k : κ) (v : β) (h : alistFind l k = some v) :
    v ∈ l.map Prod.snd := by
  induction l with
  | nil => simp [alistFind] at h
  | cons hd tl ih =>
    obtain ⟨k₀, v₀⟩ := hd
    rw [alistFind] at h
    by_cases hk : k = k₀
    · rw [if_pos hk] at h
      simp only [Option.some.injEq] at h
      subst h
      simp
    · rw [if_neg hk] at h
      simp only [List.map_cons, List.mem_cons]
      exact Or.inr (ih h)

theorem asciiLower_ne_N (c : Char) : asciiLower c ≠ 'N' := by
  unfold asciiLower
  cases hf : alistFind upperLowerTable c with
  | none =>
    intro hc
    subst hc
    rw [show alistFind upperLowerTable 'N' = some 'n' from rfl] at hf
    exact Option.noConfusion hf
  | some d =>
    have hmem := alistFind_some_mem_values upperLowerTable c d hf
    have : ∀ v ∈ upperLowerTable.map Prod.snd, v ≠ 'N' := by decide
    exact this d hmem

theorem listContains_head_notin (p : Char) (ps l : List Char)
    (h : ∀ d ∈ l, p ≠ d) : listContains (p :: ps) l = false := by
  induction l with
  | nil => rfl
  | cons c t ih =>
    rw [listContains]
    have h1 : listPrefixOf (p :: ps) (c :: t) = false := by
      rw [listPrefixOf, if_neg (h c (List.mem_cons_self _ _))]
    rw [h1, ih (fun d hd => h d (List.mem_cons_of_mem _ hd))]
    rfl



/-- The next-page text test of `get_glibc_versions_all_pages`
(src/webscraping/fedora.py:133): `'>>>' in link_text or '>>' in link_text or
'Next' in link_text.lower()`.  Note the third disjunct compares the
capitalized literal `Next` against the lower-cased text. -/
def isNextIndicator (text : String) : Bool :=
  strContains text ">>>" || strContains text ">>"
    || strContains (String.mk (lowerList text.data)) "Next"

/-- The next-link loop (fedora.py:126-135): the href of the first anchor
whose stripped text passes the indicator test. -/
def findNextLink : List Anchor → Option String
  | [] => none
  | a :: rest =>
    if isNextIndicator (pyStrip a.text) then some a.href else findNextLink rest

/-- Split a character list on every occurrence of a separator. -/
def splitSep (sep : Char) : List Char → List (List Char)
  | [] => [[]]
  | c :: t =>
    if c = sep then [] :: splitSep sep t
    else
      match splitSep sep t with
      | g :: gs => (c :: g) :: gs
      | [] => [[c]]

/-- Models `urllib.parse.parse_qs` on the plain single-valued queries of the
Koji URLs (no percent-escapes, no repeated keys): split on `&`, then each
part at its first `=`; parts without `=` or with an empty value are dropped
(`keep_blank_values` defaults to false). -/
def parse_qs (q : String) : List (String × String) :=
  (splitSep '&' q.data).filterMap (fun part =>
    let (k, v) := splitAtFirst '=' part
    match v with
    | some val => if val.isEmpty then none else some (String.mk k, String.mk val)
    | none => none)

/-- Models `urllib.parse.urlencode(..., doseq=True)` on the same queries:
join `k=v` with `&` (the Koji parameter alphabet needs no percent-escaping). -/
def urlencodeQS (qs : List (String × String)) : String :=
  String.intercalate "&" (qs.map (fun kv => kv.1 ++ "=" ++ kv.2))

/-- Replace every (non-overlapping, leftmost) occurrence of `pat`, with the
list's length as explicit recursion bound. -/
def listReplaceAllF (pat repl : List Char) : Nat → List Char → List Char
  | 0, l => l
  | _ + 1, [] => []
  | fuel + 1, c :: t =>
    if pat ≠ [] ∧ listPrefixOf pat (c :: t) then
      repl ++ listReplaceAllF pat repl fuel ((c :: t).drop pat.length)
    else c :: listReplaceAllF pat repl fuel t

/-- Python's `s.replace(pat, repl)` (all occurrences, left to right). -/
def strReplace (s pat repl : String) : String :=
  String.mk (listReplaceAllF pat.data repl.data s.data.length s.data)

/-- The crawler's starting URL (fedora.py:90). -/
def base_url : String :=
  "https://koji.fedoraproject.org/koji/packageinfo?buildStart=0&packageID=57&buildOrder=-completion_time&tagOrder=name&tagStart=0#buildlist"

/-- Embeds the fallback next-URL construction of
`get_glibc_versions_all_pages` (fedora.py:137-154): if the query carries a
`buildStart` parameter, increment it by the fixed page size 50 and rebuild
the URL (note the f-string appends the fragment without a `#`); otherwise
substitute `buildStart=50` into the base URL. -/
def synthesizeNextUrl (current : String) : String :=
  let p := parseUrl current
  let qs := parse_qs p.query
  match alistFind qs "buildStart" with
  | some v =>
    let next_start := natOfDigits v.data + 50
    let qs2 := qs.map (fun kv =>
      if kv.1 = "buildStart" then (kv.1, toString next_start) else kv)
    p.scheme ++ "://" ++ p.netloc ++ p.path ++ "?" ++ urlencodeQS qs2 ++ p.fragment
  | none => strReplace base_url "buildStart=0" "buildStart=50"


/-- Claim C7 (the code at the claim's inputs): the `'Next' in
link_text.lower()` test is unsatisfiable — lower-cased text never contains
the capitalized literal — so an anchor whose visible text is `Next`/`next`/
`NEXT` is never selected and only the arrow glyphs matter; the crawler then
falls through to synthesizing the next URL by incrementing `buildStart` by
50. -/
theorem claim_C7 :
    (∀ t : String, isNextIndicator t = (strContains t ">>>" || strContains t ">>"))
    ∧ findNextLink [⟨"Next", "packageinfo?buildStart=50&packageID=57"⟩] = none
    ∧ findNextLink [⟨">>", "packageinfo?buildStart=50&packageID=57"⟩]
        = some "packageinfo?buildStart=50&packageID=57"
    ∧ synthesizeNextUrl "https://koji.fedoraproject.org/koji/packageinfo?buildStart=0&packageID=57"
        = "https://koji.fedoraproject.org/koji/packageinfo?buildStart=50&packageID=57" := by
  refine ⟨?_, rfl, rfl, rfl⟩
  intro t
  have hdead : strContains (String.mk (lowerList t.data)) "Next" = false := by
    apply listContains_head_notin
    intro d hd
    rw [show (String.mk (lowerList t.data)).data = lowerList t.data from rfl] at hd
    rcases List.mem_map.mp hd with ⟨c, _, rfl⟩
    exact fun h => asciiLower_ne_N c h.symm
  rw [isNextIndicator, hdead]
  simp



/-- Models `urllib.parse.urljoin` for the join shapes this crawler meets: an
absolute href replaces the base; a root-relative href keeps scheme and
netloc; any other href replaces everything after the last `/` of the base
path (base query and fragment dropped). -/
def urljoin (base href : String) : String :=
  if strContains href "://" then href
  else
    let p := parseUrl base
    if strStartsWith href "/" then p.scheme ++ "://" ++ p.netloc ++ href
    else
      let dir := String.mk (p.path.data.reverse.dropWhile (fun c => c ≠ '/')).reverse
      p.scheme ++ "://" ++ p.netloc ++ dir ++ href


/-- A site, for the crawl model: the finite mapping from URL to that page's
anchors; a URL outside the mapping is a fetch failure
(`requests.RequestException`). -/
def fetchSite (site : List (String × List Anchor)) (url : String) : Option (List Anchor) :=
  alistFind site url

/-- What `get_glibc_versions_all_pages` accumulates: the version dictionary,
the page counter, and (for the temporal claims) the trace of `requests.get`
calls in order. -/
structure CrawlResult where
  version_dict : GDict
  page_count : Nat
  fetched : List String
deriving DecidableEq, Repr

/-- Embeds the pagination loop of `get_glibc_versions_all_pages`
(src/webscraping/fedora.py:101-173).  `fuel` bounds the number of iterations
(the Python `while` may iterate unboundedly); the claims proved below hold
for every bound.  Each iteration: stop on an empty or already-processed URL;
count and mark the page; fetch and scrape it (a failed fetch makes the
scraper report `False`); stop when nothing matched; otherwise fetch the page
again for pagination links, take the first next-indicator anchor (joined to
the current URL) or synthesize the next URL, stop on a cycle, and continue. -/
def crawlLoop (site : List (String × List Anchor)) :
    Nat → String → List String → GDict → Nat → List String → CrawlResult
  | 0, _, _, d, count, trace => ⟨d, count, trace⟩
  | fuel + 1, current, processed, d, count, trace =>
    if current = "" ∨ current ∈ processed then ⟨d, count, trace⟩
    else
      match fetchSite site current with
      | none => ⟨d, count + 1, trace ++ [current]⟩
      | some anchors =>
        let (found, d') := scrape_glibc_versions_from_page current anchors d
        if !found then ⟨d', count + 1, trace ++ [current]⟩
        else
          match fetchSite site current with
          | none => ⟨d', count + 1, trace ++ [current, current]⟩
          | some anchors2 =>
            let next_url :=
              match findNextLink anchors2 with
              | some href => urljoin current href
              | none => synthesizeNextUrl current
            if next_url ∈ current :: processed then ⟨d', count + 1, trace ++ [current, current]⟩
            else
              crawlLoop site fuel next_url (current :: processed) d' (count + 1)
                (trace ++ [current, current])

/-- Embeds `get_glibc_versions_all_pages` (fedora.py:82-173): run the loop
from the base URL with empty accumulators. -/
def get_glibc_versions_all_pages (site : List (String × List Anchor)) (fuel : Nat) :
    CrawlResult :=
  crawlLoop site fuel base_url [] [] 0 []

/-- Claim C8: when a fetched listing page yields zero anchors matching the
version pattern, pagination stops entirely — that page's fetch is the last
request performed, and the accumulated dictionary and page count are returned
as they stand (such a page contributes nothing to the dictionary). -/
theorem claim_C8 (site : List (String × List Anchor)) (fuel : Nat) (current : String)
    (processed trace : List String) (d : GDict) (count : Nat) (anchors : List Anchor)
    (hne : ¬(current = "" ∨ current ∈ processed))
    (hf : fetchSite site current = some anchors)
    (hnomatch : ∀ a ∈ anchors, parseGlibcAnchor (pyStrip a.text) = none) :
    crawlLoop site (fuel + 1) current processed d count trace
      = ⟨d, count + 1, trace ++ [current]⟩ := by
  have hfound : (scrape_glibc_versions_from_page current anchors d).1 = false := by
    rw [scrape_glibc_versions_from_page, scrape_found_eq current anchors (false, d)]
    simp only [Bool.false_or, List.any_eq_false]
    intro a ha
    rw [hnomatch a ha]
    simp
  have hdict : (scrape_glibc_versions_from_page current anchors d).2 = d := by
    rw [scrape_glibc_versions_from_page, scrape_dict_eq_dedupFold current anchors (false, d)]
    have : anchors.filterMap (entryOf current) = [] := by
      rw [List.filterMap_eq_nil_iff]
      intro a ha
      rw [entryOf, hnomatch a ha]
    rw [this]
    rfl
  have hscrape : scrape_glibc_versions_from_page current anchors d = (false, d) := by
    rw [Prod.ext_iff]
    exact ⟨hfound, hdict⟩
  rw [crawlLoop, if_neg hne]
  rw [show fetchSite site current = some anchors from hf]
  dsimp only
  rw [hscrape]
  simp

/-- Witness for claim C8: a one-page site whose page has no anchors. -/
theorem claim_C8_witness :
    (¬(("https://koji.fedoraproject.org/p1" : String) = "" ∨
        ("https://koji.fedoraproject.org/p1" : String) ∈ ([] : List String)))
    ∧ fetchSite [("https://koji.fedoraproject.org/p1", ([] : List Anchor))]
        "https://koji.fedoraproject.org/p1" = some []
    ∧ (∀ a ∈ ([] : List Anchor), parseGlibcAnchor (pyStrip a.text) = none)
    ∧ crawlLoop [("https://koji.fedoraproject.org/p1", ([] : List Anchor))] 5
        "https://koji.fedoraproject.org/p1" [] [] 0 []
      = ⟨[], 1, ["https://koji.fedoraproject.org/p1"]⟩ :=
  ⟨by simp, rfl, by simp,
    claim_C8 [("https://koji.fedoraproject.org/p1", ([] : List Anchor))] 4
      "https://koji.fedoraproject.org/p1" [] [] [] 0 [] (by simp) rfl (by simp)⟩

/-! ## The extraction chain: Claim C6 -/
/-- A nonempty all-digit group. -/
def digitsNonempty (g : List Char) : Bool := !g.isEmpty && g.all Char.isDigit

/-- The spec's version-token grammar, stated independently of the matcher:
one or more digits, a dot, one or more digits, optionally repeated — i.e. at
least two dot-separated groups, every group a nonempty digit string. -/
def isVersionShape (tok : List Char) : Bool :=
  2 ≤ (splitSep '.' tok).length && (splitSep '.' tok).all digitsNonempty

/-- Rejoin what `splitSep '.'` produced. -/
def joinDots : List (List Char) → List Char
  | [] => []
  | [g] => g
  | g :: gs => g ++ '.' :: joinDots gs

theorem splitSep_ne_nil (sep : Char) (l : List Char) : splitSep sep l ≠ [] := by
  cases l with
  | nil => simp [splitSep]
  | cons c t =>
    rw [splitSep]
    by_cases h : c = sep
    · simp [h]
    · rw [if_neg h]
      cases hs : splitSep sep t with
      | nil => simp
      | cons g gs => simp

theorem joinDots_splitSep (l : List Char) : joinDots (splitSep '.' l) = l := by
  induction l with
  | nil => rfl
  | cons c t ih =>
    rw [splitSep]
    by_cases h : c = '.'
    · rw [if_pos h]
      cases hs : splitSep '.' t with
      | nil => exact absurd hs (splitSep_ne_nil '.' t)
      | cons g gs =>
        rw [hs] at ih
        rw [show joinDots ([] :: g :: gs) = [] ++ '.' :: joinDots (g :: gs) from rfl]
        rw [ih, h]
        rfl
    · rw [if_neg h]
      cases hs : splitSep '.' t with
      | nil => exact absurd hs (splitSep_ne_nil '.' t)
      | cons g gs =>
        rw [hs] at ih
        cases gs with
        | nil =>
          rw [show joinDots [c :: g] = c :: g from rfl]
          rw [show joinDots [g] = g from rfl] at ih
          rw [ih]
        | cons g2 gs2 =>
          rw [show joinDots ((c :: g) :: g2 :: gs2) = (c :: g) ++ '.' :: joinDots (g2 :: gs2) from rfl]
          rw [show joinDots (g :: g2 :: gs2) = g ++ '.' :: joinDots (g2 :: gs2) from rfl] at ih
          rw [List.cons_append, ih]

theorem splitSep_no_sep (sep : Char) (l : List Char) (h : ∀ c ∈ l, c ≠ sep) :
    splitSep sep l = [l] := by
  induction l with
  | nil => rfl
  | cons c t ih =>
    rw [splitSep, if_neg (h c (List.mem_cons_self _ _)),
      ih (fun x hx => h x (List.mem_cons_of_mem _ hx))]

theorem splitSep_append_sep (sep : Char) (a b : List Char) (h : ∀ c ∈ a, c ≠ sep) :
    splitSep sep (a ++ sep :: b) = a :: splitSep sep b := by
  induction a with
  | nil => simp [splitSep]
  | cons c t ih =>
    rw [List.cons_append, splitSep, if_neg (h c (List.mem_cons_self _ _)),
      ih (fun x hx => h x (List.mem_cons_of_mem _ hx))]

theorem digit_ne_dot (c : Char) (h : c.isDigit = true) : c ≠ '.' := by
  intro hc
  subst hc
  exact absurd h (by decide)



theorem extendRun_groups (l : List Char) :
    ∀ pre : List Char, pre ≠ [] → pre.all Char.isDigit = true →
      (splitSep '.' (pre ++ (extendRun l).1)).all digitsNonempty = true := by
  induction l using extendRun.induct with
  | case1 =>
    intro pre hne hdig
    rw [show (extendRun []).1 = [] from rfl, List.append_nil]
    rw [splitSep_no_sep '.' pre
      (fun c hc => digit_ne_dot c (List.all_eq_true.mp hdig c hc))]
    simp [digitsNonempty, List.isEmpty_iff, hne, hdig]
  | case2 c rest h ih =>
    intro pre hne hdig
    rw [extendRun_cons_digit c rest h]
    rw [show pre ++ c :: (extendRun rest).1 = (pre ++ [c]) ++ (extendRun rest).1 by simp]
    exact ih (pre ++ [c]) (by simp) (by
      rw [List.all_append]
      simp [hdig, h])
  | case3 c rest h hnd ih =>
    intro pre hne hdig
    rw [extendRun_dot_digit c rest h]
    rw [show pre ++ '.' :: c :: (extendRun rest).1 = pre ++ '.' :: ([c] ++ (extendRun rest).1)
      from rfl]
    rw [splitSep_append_sep '.' pre _
      (fun x hx => digit_ne_dot x (List.all_eq_true.mp hdig x hx))]
    rw [List.all_cons]
    have h1 : digitsNonempty pre = true := by
      simp [digitsNonempty, List.isEmpty_iff, hne, hdig]
    rw [h1, ih [c] (by simp) (by simp [h])]
    rfl
  | case4 d rest2 hd hnd =>
    intro pre hne hdig
    rw [extendRun_dot_nondigit d rest2 hd, List.append_nil]
    rw [splitSep_no_sep '.' pre
      (fun c hc => digit_ne_dot c (List.all_eq_true.mp hdig c hc))]
    simp [digitsNonempty, List.isEmpty_iff, hne, hdig]
  | case5 hnd =>
    intro pre hne hdig
    rw [extendRun_dot_nil, List.append_nil]
    rw [splitSep_no_sep '.' pre
      (fun c hc => digit_ne_dot c (List.all_eq_true.mp hdig c hc))]
    simp [digitsNonempty, List.isEmpty_iff, hne, hdig]
  | case6 c rest h1 h2 =>
    intro pre hne hdig
    rw [extendRun_stop c rest h1 h2, List.append_nil]
    rw [splitSep_no_sep '.' pre
      (fun c hc => digit_ne_dot c (List.all_eq_true.mp hdig c hc))]
    simp [digitsNonempty, List.isEmpty_iff, hne, hdig]



theorem matchVersionAt_shape (l m r : List Char) (h : matchVersionAt l = some (m, r)) :
    isVersionShape m = true := by
  unfold matchVersionAt at h
  split at h
  · exact absurd h (by simp)
  · next d1 r1 hd1 =>
    split at h
    · next r2 =>
      split at h
      · next c r3 =>
        split at h
        · next hcd =>
          simp only [Option.some.injEq, Prod.mk.injEq] at h
          obtain ⟨hm, _⟩ := h
          obtain ⟨_, hne1, hdig1⟩ := matchDigits_spec l d1 ('.' :: c :: r3) hd1
          subst hm
          rw [isVersionShape]
          rw [show d1 ++ '.' :: c :: (extendRun r3).1 = d1 ++ '.' :: ([c] ++ (extendRun r3).1)
            from rfl]
          rw [splitSep_append_sep '.' d1 _
            (fun x hx => digit_ne_dot x (hdig1 x hx))]
          refine Bool.and_eq_true_iff.mpr ⟨?_, ?_⟩
          · have := splitSep_ne_nil '.' ([c] ++ (extendRun r3).1)
            cases hs : splitSep '.' ([c] ++ (extendRun r3).1) with
            | nil => exact absurd hs this
            | cons g gs => simp
          · rw [List.all_cons]
            refine Bool.and_eq_true_iff.mpr ⟨?_, ?_⟩
            · simp [digitsNonempty, List.isEmpty_iff, hne1]
              intro x hx
              exact hdig1 x hx
            · exact extendRun_groups r3 [c] (by simp) (by simp [hcd])
        · exact absurd h (by simp)
      · exact absurd h (by simp)
    · exact absurd h (by simp)

theorem searchVersionFrom_some_infix (l m : List Char) (h : searchVersionFrom l = some m) :
    m <:+: l ∧ isVersionShape m = true := by
  induction l with
  | nil => simp [searchVersionFrom] at h
  | cons c t ih =>
    rw [searchVersionFrom] at h
    cases hm : matchVersionAt (c :: t) with
    | some p =>
      obtain ⟨m', r⟩ := p
      rw [hm] at h
      simp only [Option.some.injEq] at h
      subst h
      obtain ⟨hsplit, _, _⟩ := matchVersionAt_spec _ _ _ hm
      exact ⟨⟨[], r, by rw [hsplit]; simp⟩, matchVersionAt_shape _ _ _ hm⟩
    | none =>
      rw [hm] at h
      obtain ⟨hinf, hshape⟩ := ih h
      refine ⟨?_, hshape⟩
      obtain ⟨s, t2, hst⟩ := hinf
      exact ⟨c :: s, t2, by simp [hst]⟩



theorem takeWhile_append_all (p : Char → Bool) (a b : List Char) (h : a.all p = true) :
    (a ++ b).takeWhile p = a ++ b.takeWhile p := by
  induction a with
  | nil => simp
  | cons c t ih =>
    rw [List.all_cons] at h
    obtain ⟨hc, ht⟩ := Bool.and_eq_true_iff.mp h
    rw [List.cons_append, List.takeWhile_cons_of_pos hc, ih ht]
    rfl

theorem dropWhile_append_all (p : Char → Bool) (a b : List Char) (h : a.all p = true) :
    (a ++ b).dropWhile p = b.dropWhile p := by
  induction a with
  | nil => simp
  | cons c t ih =>
    rw [List.all_cons] at h
    obtain ⟨hc, ht⟩ := Bool.and_eq_true_iff.mp h
    rw [List.cons_append, List.dropWhile_cons_of_pos hc, ih ht]

theorem shape_decomp (tok : List Char) (h : isVersionShape tok = true) :
    ∃ g1 c tail, tok = g1 ++ '.' :: c :: tail ∧ g1 ≠ [] ∧ g1.all Char.isDigit = true
      ∧ c.isDigit = true := by
  rw [isVersionShape] at h
  obtain ⟨hlen, hall⟩ := Bool.and_eq_true_iff.mp h
  have hinv := joinDots_splitSep tok
  cases hs : splitSep '.' tok with
  | nil => exact absurd hs (splitSep_ne_nil '.' tok)
  | cons g1 gs1 =>
    cases gs1 with
    | nil => rw [hs] at hlen; simp at hlen
    | cons g2 gs2 =>
      rw [hs] at hinv hall
      rw [List.all_cons, List.all_cons] at hall
      have hg1 := (Bool.and_eq_true_iff.mp hall).1
      have hg2 := (Bool.and_eq_true_iff.mp (Bool.and_eq_true_iff.mp hall).2).1
      rw [digitsNonempty, Bool.and_eq_true_iff] at hg1 hg2
      cases hg2c : g2 with
      | nil => rw [hg2c] at hg2; simp at hg2
      | cons c g2t =>
        rw [hg2c] at hg2
        have hcdig : c.isDigit = true := by
          have := hg2.2
          rw [List.all_cons] at this
          exact (Bool.and_eq_true_iff.mp this).1
        cases gs2 with
        | nil =>
          rw [show joinDots (g1 :: g2 :: ([] : List (List Char))) = g1 ++ '.' :: joinDots [g2]
            from rfl, show joinDots [g2] = g2 from rfl, hg2c] at hinv
          refine ⟨g1, c, g2t, hinv.symm, ?_, hg1.2, hcdig⟩
          simpa [List.isEmpty_iff] using hg1.1
        | cons g3 gs3 =>
          rw [show joinDots (g1 :: g2 :: g3 :: gs3) = g1 ++ '.' :: joinDots (g2 :: g3 :: gs3)
            from rfl, show joinDots (g2 :: g3 :: gs3) = g2 ++ '.' :: joinDots (g3 :: gs3)
            from rfl, hg2c] at hinv
          refine ⟨g1, c, g2t ++ '.' :: joinDots (g3 :: gs3), ?_, ?_, hg1.2, hcdig⟩
          · rw [← hinv]
            simp
          · simpa [List.isEmpty_iff] using hg1.1

theorem matchVersionAt_isSome_append (tok post : List Char) (h : isVersionShape tok = true) :
    (matchVersionAt (tok ++ post)).isSome = true := by
  obtain ⟨g1, c, tail, htok, hne, hdig, hcdig⟩ := shape_decomp tok h
  subst htok
  have h1 : matchDigits (g1 ++ '.' :: c :: tail ++ post)
      = some (g1, '.' :: c :: tail ++ post) := by
    rw [matchDigits]
    rw [show (g1 ++ '.' :: c :: tail) ++ post = g1 ++ ('.' :: c :: tail ++ post) by simp]
    rw [takeWhile_append_all Char.isDigit g1 _ hdig,
      dropWhile_append_all Char.isDigit g1 _ hdig]
    rw [show List.takeWhile Char.isDigit ('.' :: c :: tail ++ post) = [] from rfl,
      show List.dropWhile Char.isDigit ('.' :: c :: tail ++ post) = '.' :: c :: tail ++ post
        from rfl]
    rw [List.append_nil]
    rw [if_neg (by simpa [List.isEmpty_iff] using hne)]
  rw [show (g1 ++ '.' :: c :: tail) ++ post = g1 ++ ('.' :: c :: tail ++ post) by simp]
  unfold matchVersionAt
  rw [show g1 ++ '.' :: c :: tail ++ post = g1 ++ ('.' :: c :: tail ++ post) by simp] at h1
  rw [h1]
  simp [hcdig]

theorem searchVersionFrom_none_mat : ∀ (pre suf : List Char),
    searchVersionFrom (pre ++ suf) = none → matchVersionAt suf = none := by
  intro pre
  induction pre with
  | nil =>
    intro suf h
    cases suf with
    | nil => rfl
    | cons c t =>
      rw [List.nil_append] at h
      rw [searchVersionFrom] at h
      cases hm : matchVersionAt (c :: t) with
      | some p => obtain ⟨m, r⟩ := p; rw [hm] at h; exact absurd h (by simp)
      | none => rfl
  | cons p ps ih =>
    intro suf h
    rw [List.cons_append, searchVersionFrom] at h
    cases hm : matchVersionAt (p :: (ps ++ suf)) with
    | some q => obtain ⟨m, r⟩ := q; rw [hm] at h; exact absurd h (by simp)
    | none =>
      rw [hm] at h
      exact ih suf h



/-- The hard-coded candidate in-archive paths for the shared object
(src/webscraping/fedora.py:420). -/
def LIBC_PATHS : List String :=
  ["./usr/lib64/libc.so.6", "./usr/lib/libc.so.6", "./lib64/libc.so.6", "./lib/libc.so.6"]

/-- A Python exception escaping the extraction step. -/
inductive PyError where
  | fileNotFound
  | valueError (msg : String)
deriving DecidableEq, Repr

/-- The runtime environment `extract_with_rpm2cpio` meets: which external
tools can be spawned, what `cpio` exits with, and which filesystem paths
exist after extraction. -/
structure ExtractEnv where
  rpm2cpioAvailable : Bool
  cpioAvailable : Bool
  cpioReturncode : Int
  existingPaths : List String
deriving DecidableEq, Repr

/-- `path.lstrip('./')`: strip every leading `.` or `/` character. -/
def lstripDotSlash (p : String) : String :=
  String.mk (p.data.dropWhile (fun c => c = '.' ∨ c = '/'))

/-- Embeds `extract_with_rpm2cpio` (src/webscraping/fedora.py:465-504).
`Except.error` is an exception escaping the function, `.ok none` the handled
failure path (`return None`), `.ok (some p)` a successful extraction.  The
order mirrors the source: the `rpm2cpio` spawn may raise `FileNotFoundError`
(caught by the sole `except` clause); building the `cpio` argument list
evaluates `create_libc_filename`, whose `ValueError` no clause catches; the
`cpio` spawn may raise `FileNotFoundError` (caught); on exit status 0 the
first candidate path existing on disk is returned, otherwise `None`. -/
def extract_with_rpm2cpio (env : ExtractEnv) (rpm_file output_dir : String) :
    Except PyError (Option String) :=
  if !env.rpm2cpioAvailable then .ok none
  else
    match create_libc_filename rpm_file with
    | .error msg => .error (.valueError msg)
    | .ok _libc_name =>
      if !env.cpioAvailable then .ok none
      else if env.cpioReturncode = 0 then
        .ok ((LIBC_PATHS.map (fun p => joinPath output_dir (lstripDotSlash p))).find?
          (fun fp => fp ∈ env.existingPaths))
      else .ok none

/-- Claim C6: `create_libc_filename` raises exactly when its input contains
no version-like numeric-dot token (digits, a dot, digits, optionally
repeated — stated via the grammar, not the matcher); and when it raises
while the item's chain is running (the `rpm2cpio` spawn has succeeded, so the
argument list of `cpio` is being built), the `ValueError` escapes
`extract_with_rpm2cpio` as a hard unrecovered failure instead of the handled
`None` path; when a token exists the chain never raises. -/
theorem claim_C6 (env : ExtractEnv) (f dir : String) :
    ((∃ msg, create_libc_filename f = .error msg)
        ↔ ¬∃ tok, tok <:+: f.data ∧ isVersionShape tok = true)
    ∧ ((∃ msg, create_libc_filename f = .error msg) → env.rpm2cpioAvailable = true →
        ∃ msg, extract_with_rpm2cpio env f dir = .error (.valueError msg))
    ∧ ((∃ tok, tok <:+: f.data ∧ isVersionShape tok = true) →
        ∀ e, extract_with_rpm2cpio env f dir ≠ .error e) := by
  have hiff : (∃ msg, create_libc_filename f = .error msg)
      ↔ ¬∃ tok, tok <:+: f.data ∧ isVersionShape tok = true := by
    constructor
    · rintro ⟨msg, hmsg⟩ ⟨tok, ⟨s, t, hst⟩, hshape⟩
      rw [create_libc_filename] at hmsg
      cases hs : searchVersionFrom f.data with
      | some v => rw [hs] at hmsg; exact absurd hmsg (by simp)
      | none =>
        have hmat := searchVersionFrom_none_mat s (tok ++ t) (by rw [← List.append_assoc, hst]; exact hs)
        have := matchVersionAt_isSome_append tok t hshape
        rw [hmat] at this
        exact absurd this (by simp)
    · intro hno
      rw [create_libc_filename]
      cases hs : searchVersionFrom f.data with
      | some v =>
        obtain ⟨hinf, hshape⟩ := searchVersionFrom_some_infix f.data v hs
        exact absurd ⟨v, hinf, hshape⟩ hno
      | none => exact ⟨_, rfl⟩
  refine ⟨hiff, ?_, ?_⟩
  · rintro ⟨msg, hmsg⟩ havail
    rw [extract_with_rpm2cpio, havail]
    rw [show (!true) = false from rfl, if_neg (by simp)]
    rw [hmsg]
    exact ⟨msg, rfl⟩
  · intro htok e
    have hok : ∃ v, create_libc_filename f = .ok v := by
      by_cases hs : ∃ msg, create_libc_filename f = .error msg
      · exact absurd htok (hiff.mp hs)
      · cases hc : create_libc_filename f with
        | error msg => exact absurd ⟨msg, hc⟩ hs
        | ok v => exact ⟨v, rfl⟩
    obtain ⟨v, hv⟩ := hok
    rw [extract_with_rpm2cpio]
    by_cases h2 : env.rpm2cpioAvailable
    · rw [h2]
      rw [show (!true) = false from rfl, if_neg (by simp)]
      rw [hv]
      by_cases h3 : env.cpioAvailable
      · rw [h3]
        rw [show (!true) = false from rfl, if_neg (by simp)]
        by_cases h4 : env.cpioReturncode = 0
        · rw [if_pos h4]
          simp
        · rw [if_neg h4]
          simp
      · rw [Bool.eq_false_iff.mpr h3]
        simp
    · rw [Bool.eq_false_iff.mpr h2]
      simp

/-- Witness for claim C6: `glibc.rpm` has no version token, so with
`rpm2cpio` installed the extraction chain dies with the propagated
`ValueError`; `glibc-2.39-2.fc40.x86_64.rpm` carries the token `2.39`, so the
chain never raises. -/
theorem claim_C6_witness :
    (∃ msg, create_libc_filename "glibc.rpm" = .error msg)
    ∧ (⟨true, true, 0, []⟩ : ExtractEnv).rpm2cpioAvailable = true
    ∧ (∃ msg, extract_with_rpm2cpio ⟨true, true, 0, []⟩ "glibc.rpm" "../GlibcDownloads/Fedora/Binaries"
        = .error (.valueError msg))
    ∧ (∃ tok, tok <:+: ("glibc-2.39-2.fc40.x86_64.rpm" : String).data ∧ isVersionShape tok = true)
    ∧ (∀ e, extract_with_rpm2cpio ⟨true, true, 0, []⟩ "glibc-2.39-2.fc40.x86_64.rpm"
        "../GlibcDownloads/Fedora/Binaries" ≠ .error e) :=
  ⟨⟨_, rfl⟩, rfl,
    (claim_C6 ⟨true, true, 0, []⟩ "glibc.rpm" "../GlibcDownloads/Fedora/Binaries").2.1 ⟨_, rfl⟩ rfl,
    ⟨['2', '.', '3', '9'], ⟨"glibc-".data, "-2.fc40.x86_64.rpm".data, by decide⟩, by decide⟩,
    (claim_C6 ⟨true, true, 0, []⟩ "glibc-2.39-2.fc40.x86_64.rpm" "../GlibcDownloads/Fedora/Binaries").2.2
      ⟨['2', '.', '3', '9'], ⟨"glibc-".data, "-2.fc40.x86_64.rpm".data, by decide⟩, by decide⟩⟩

end GlibcRop
